import Mathlib

/-!
Verification of the Merkle-enabled blockchain data-integrity program
(`main.go`).  The development shallowly embeds the program: SHA-256 is
implemented as an executable function on byte lists, Go's `%v` rendering of
string slices and `%d` rendering of integers are modelled explicitly, and the
ledger operations (`NewBlock`, `ChangeBlock`, `VerifyChain`, `GetRecentBlock`,
`CreateMerkleRoot`, `CreateHash`, `FindValidNonce`) are translated function by
function.  The unbounded proof-of-work loop is given an explicit fuel
parameter; `none` models the Go loop not returning.
-/

/-! SHA-256, executable over lists of byte values (each < 256).
All word arithmetic is `Nat` reduced modulo `2 ^ 32`. -/

def M32 : Nat := 4294967296

def rotr (n x : Nat) : Nat := (x >>> n) ||| ((x <<< (32 - n)) % M32)

def bsig0 (x : Nat) : Nat := rotr 2 x ^^^ rotr 13 x ^^^ rotr 22 x
def bsig1 (x : Nat) : Nat := rotr 6 x ^^^ rotr 11 x ^^^ rotr 25 x
def ssig0 (x : Nat) : Nat := rotr 7 x ^^^ rotr 18 x ^^^ (x >>> 3)
def ssig1 (x : Nat) : Nat := rotr 17 x ^^^ rotr 19 x ^^^ (x >>> 10)

def chf (x y z : Nat) : Nat := (x &&& y) ^^^ ((x ^^^ 4294967295) &&& z)
def majf (x y z : Nat) : Nat := (x &&& y) ^^^ (x &&& z) ^^^ (y &&& z)

def shaK : List Nat :=
  [1116352408, 1899447441, 3049323471, 3921009573, 961987163,
   1508970993, 2453635748, 2870763221, 3624381080, 310598401,
   607225278, 1426881987, 1925078388, 2162078206, 2614888103,
   3248222580, 3835390401, 4022224774, 264347078, 604807628,
   770255983, 1249150122, 1555081692, 1996064986, 2554220882,
   2821834349, 2952996808, 3210313671, 3336571891, 3584528711,
   113926993, 338241895, 666307205, 773529912, 1294757372,
   1396182291, 1695183700, 1986661051, 2177026350, 2456956037,
   2730485921, 2820302411, 3259730800, 3345764771, 3516065817,
   3600352804, 4094571909, 275423344, 430227734, 506948616,
   659060556, 883997877, 958139571, 1322822218, 1537002063,
   1747873779, 1955562222, 2024104815, 2227730452, 2361852424,
   2428436474, 2756734187, 3204031479, 3329325298]

def shaH0 : List Nat :=
  [1779033703, 3144134277, 1013904242, 2773480762,
   1359893119, 2600822924, 528734635, 1541459225]

def wstep (ws : List Nat) : Nat :=
  let t := ws.length
  (ssig1 (ws.getD (t - 2) 0) + ws.getD (t - 7) 0 + ssig0 (ws.getD (t - 15) 0) + ws.getD (t - 16) 0) % M32

def extendW (ws : List Nat) : Nat → List Nat
  | 0 => ws
  | k + 1 => extendW (ws ++ [wstep ws]) k

def compressStep (st : List Nat) (kw : Nat) : List Nat :=
  match st with
  | [a, b, c, d, e, f, g, h] =>
    let t1 := (h + bsig1 e + chf e f g + kw) % M32
    let t2 := (bsig0 a + majf a b c) % M32
    [(t1 + t2) % M32, a, b, c, (d + t1) % M32, e, f, g]
  | other => other

def beBytes : Nat → Nat → List Nat
  | 0, _ => []
  | m + 1, v => beBytes m (v >>> 8) ++ [v % 256]

def toWords : List Nat → List Nat
  | b0 :: b1 :: b2 :: b3 :: rest => (((b0 * 256 + b1) * 256 + b2) * 256 + b3) :: toWords rest
  | _ => []

def padMsg (msg : List Nat) : List Nat :=
  let L := msg.length
  msg ++ [128] ++ List.replicate ((119 - L % 64) % 64) 0 ++ beBytes 8 (8 * L)

def chunksGo (l : List Nat) : Nat → List (List Nat)
  | 0 => []
  | k + 1 => l.take 64 :: chunksGo (l.drop 64) k

def chunks64 (l : List Nat) : List (List Nat) := chunksGo l (l.length / 64)

def shaChunk (h : List Nat) (chunk : List Nat) : List Nat :=
  let w := extendW (toWords chunk) 48
  let kw := List.zipWith (fun k wt => (k + wt) % M32) shaK w
  let st := kw.foldl compressStep h
  List.zipWith (fun x y => (x + y) % M32) h st

def sha256Bytes (msg : List Nat) : List Nat :=
  ((chunks64 (padMsg msg)).foldl shaChunk shaH0).flatMap (beBytes 4)

def hexDigitChar (n : Nat) : Char := if n < 10 then Char.ofNat (48 + n) else Char.ofNat (87 + n)

def byteHex (b : Nat) : String := String.mk [hexDigitChar (b / 16), hexDigitChar (b % 16)]

def bytesToHex (bs : List Nat) : String := String.join (bs.map byteHex)

def utf8Char (c : Char) : List Nat :=
  let n := c.toNat
  if n < 128 then [n]
  else if n < 2048 then [192 + n / 64, 128 + n % 64]
  else if n < 65536 then [224 + n / 4096, 128 + (n / 64) % 64, 128 + n % 64]
  else [240 + n / 262144, 128 + (n / 4096) % 64, 128 + (n / 64) % 64, 128 + n % 64]

def strBytes (s : String) : List Nat := s.data.flatMap utf8Char

/-- Hex-encoded SHA-256 digest of the UTF-8 bytes of a string; the model of
Go's `fmt.Sprintf("%x", sha256.Sum256([]byte(s)))`. -/
def sha256Hex (s : String) : String := bytesToHex (sha256Bytes (strBytes s))

/-! The data model of `main.go`. -/

/-- Block mirrors the Go struct `Block` field for field; the Go `int` nonce is
modelled as `Int`. -/
structure Block where
  Transaction : List String
  Nonce : Int
  PreviousHash : String
  CurrentHash : String
  MerkleRoot : String
deriving DecidableEq

/-- Blockchain mirrors the Go struct `Blockchain`. -/
structure Blockchain where
  Blocks : List Block
  NumTransactionsPerBlock : Int
  BlockHashMin : String
  BlockHashMax : String
deriving DecidableEq

/-- Go zero value `Block{}`: nil slice, zero nonce, empty strings. -/
def zeroBlock : Block :=
  { Transaction := [], Nonce := 0, PreviousHash := "", CurrentHash := "", MerkleRoot := "" }

/-- GetRecentBlock: returns `Block{}` when the chain is empty, otherwise
`bc.Blocks[len(bc.Blocks)-1]`. -/
def Blockchain.GetRecentBlock (bc : Blockchain) : Block :=
  if bc.Blocks.length = 0 then zeroBlock
  else bc.Blocks.getD (bc.Blocks.length - 1) zeroBlock

/-- Go renders a `[]string` under the `%v` verb as the elements separated by
single spaces, inside square brackets; the empty slice renders as `[]`. -/
def goStringsFmt (ts : List String) : String := "[" ++ String.intercalate " " ts ++ "]"

/-- CreateHash: `data := fmt.Sprintf("%v%d%s%s", transactions, nonce,
previousHash, merkleRoot)` followed by the hex-encoded SHA-256 of `data`. -/
def CreateHash (transactions : List String) (nonce : Int)
    (previousHash : String) (merkleRoot : String) : String :=
  sha256Hex (goStringsFmt transactions ++ toString nonce ++ previousHash ++ merkleRoot)

/-- Fixed difficulty constant `leadingZeros := 4` of `FindValidNonce`. -/
def leadingZeros : Nat := 4

/-- Target string `strings.Repeat("0", leadingZeros)`. -/
def difficultyTarget : String := String.join (List.replicate leadingZeros "0")

def listLeads : List Char → List Char → Bool
  | [], _ => true
  | _ :: _, [] => false
  | a :: as, b :: bs => a == b && listLeads as bs

/-- Model of `strings.HasPrefix s p`: the characters of `p` lead those of `s`
(all strings the program compares are ASCII hex digests or the ASCII target,
so the character-level and byte-level readings coincide). -/
def strHasAsStart (s p : String) : Bool := listLeads p.data s.data

/-- Loop body of `FindValidNonce`: starting at the given nonce, return the
first nonce whose hash of the EMPTY transaction list meets the target.  The Go
loop is unbounded; `fuel` bounds the number of iterations modelled, with
`none` standing for the loop not having returned within `fuel` steps. -/
def findValidNonceAux (merkleRoot previousHash : String) : Nat → Nat → Option Nat
  | 0, _ => none
  | fuel + 1, nonce =>
    if strHasAsStart (CreateHash [] (Int.ofNat nonce) previousHash merkleRoot) difficultyTarget
    then some nonce
    else findValidNonceAux merkleRoot previousHash fuel (nonce + 1)

/-- FindValidNonce: the search starts at nonce 0. -/
def FindValidNonce (fuel : Nat) (merkleRoot previousHash : String) : Option Nat :=
  findValidNonceAux merkleRoot previousHash fuel 0

/-- One pass of the pairing loop inside `CreateMerkleRoot`: consecutive pairs
in order, the odd tail paired with the empty string, each pair concatenated
(first then second, no delimiter) and hashed. -/
def pairStep : List String → List String
  | [] => []
  | [a] => [sha256Hex (a ++ "")]
  | a :: b :: rest => sha256Hex (a ++ b) :: pairStep rest

/-- Structural-recursion engine for `CreateMerkleRoot`: `fuel` bounds the
recursion depth.  Since `pairStep` strictly shrinks any list of length ≥ 2,
fuel equal to the list length always suffices, so the `0, _ :: _ :: _` branch
is unreachable from `CreateMerkleRoot` (proved in `merkleGo_fuel` and
`CreateMerkleRoot_step` below). -/
def merkleGo : Nat → List String → String
  | _, [] => ""
  | _, [t] => t
  | 0, _ :: _ :: _ => ""
  | fuel + 1, a :: b :: rest => merkleGo fuel (pairStep (a :: b :: rest))

/-- CreateMerkleRoot: empty list gives `""`, a singleton returns its element
unchanged, otherwise recurse on the paired-and-hashed list. -/
def CreateMerkleRoot (transactions : List String) : String :=
  merkleGo transactions.length transactions

/-- NewBlock: rejects an empty batch, appends a block when the batch reaches
`NumTransactionsPerBlock`, rejects (unchanged) otherwise.  `none` models the
proof-of-work loop not returning. -/
def Blockchain.NewBlock (fuel : Nat) (bc : Blockchain)
    (transactions : List String) : Option Blockchain :=
  if transactions.length = 0 then some bc
  else if (transactions.length : Int) ≥ bc.NumTransactionsPerBlock then
    let previousBlock := bc.GetRecentBlock
    let previousHash := previousBlock.CurrentHash
    let merkleRoot := CreateMerkleRoot transactions
    match FindValidNonce fuel merkleRoot previousHash with
    | none => none
    | some nonce =>
      let currentHash := CreateHash transactions (Int.ofNat nonce) previousHash merkleRoot
      some { bc with
        Blocks := bc.Blocks ++
          [{ Transaction := transactions, Nonce := Int.ofNat nonce,
             PreviousHash := previousHash, CurrentHash := currentHash,
             MerkleRoot := merkleRoot }] }
  else some bc

/-- ChangeBlock: for an in-range index, appends the new transaction to a copy
of the block's transaction list, recomputes the Merkle root, previous hash,
nonce and current hash, and replaces the block in place, returning true;
otherwise returns false with the chain untouched. -/
def Blockchain.ChangeBlock (fuel : Nat) (bc : Blockchain) (index : Int)
    (newTransaction : String) : Option (Bool × Blockchain) :=
  if 0 ≤ index ∧ index < (bc.Blocks.length : Int) then
    let i := index.toNat
    let oldBlock := bc.Blocks.getD i zeroBlock
    let transactions := oldBlock.Transaction ++ [newTransaction]
    let merkleRoot := CreateMerkleRoot transactions
    let previousHash := if 0 < index then (bc.Blocks.getD (i - 1) zeroBlock).CurrentHash else ""
    match FindValidNonce fuel merkleRoot previousHash with
    | none => none
    | some nonce =>
      let currentHash := CreateHash transactions (Int.ofNat nonce) previousHash merkleRoot
      some (true, { bc with
        Blocks := bc.Blocks.set i
          { Transaction := transactions, Nonce := Int.ofNat nonce,
            PreviousHash := previousHash, CurrentHash := currentHash,
            MerkleRoot := merkleRoot } })
  else some (false, bc)

/-- Transaction list produced by `ChangeBlock`: the old block's list with the
new transaction appended. -/
def rewriteTxs (bc : Blockchain) (index : Int) (t : String) : List String :=
  (bc.Blocks.getD index.toNat zeroBlock).Transaction ++ [t]

/-- Previous hash recomputed by `ChangeBlock`: the predecessor's
`CurrentHash`, or the empty string at index 0. -/
def rewritePrev (bc : Blockchain) (index : Int) : String :=
  if 0 < index then (bc.Blocks.getD (index.toNat - 1) zeroBlock).CurrentHash else ""

/-- The replacement block built by `ChangeBlock` once the proof-of-work
search has returned `nonce`; definitionally the block the source stores. -/
def rewrittenBlock (bc : Blockchain) (index : Int) (t : String) (nonce : Nat) : Block :=
  { Transaction := rewriteTxs bc index t,
    Nonce := Int.ofNat nonce,
    PreviousHash := rewritePrev bc index,
    CurrentHash := CreateHash (rewriteTxs bc index t) (Int.ofNat nonce) (rewritePrev bc index)
      (CreateMerkleRoot (rewriteTxs bc index t)),
    MerkleRoot := CreateMerkleRoot (rewriteTxs bc index t) }

/-- Loop of `VerifyChain`: every adjacent pair must satisfy
`Blocks[i].PreviousHash == Blocks[i-1].CurrentHash`. -/
def chainOk : List Block → Bool
  | [] => true
  | [_] => true
  | a :: b :: rest => (b.PreviousHash == a.CurrentHash) && chainOk (b :: rest)

/-- VerifyChain over the block list. -/
def Blockchain.VerifyChain (bc : Blockchain) : Bool := chainOk bc.Blocks

/-- Runs a sequence of `NewBlock` calls; `none` as soon as one of them fails
to return. -/
def applyBatches (fuel : Nat) (bc : Blockchain) : List (List String) → Option Blockchain
  | [] => some bc
  | ts :: rest =>
    match bc.NewBlock fuel ts with
    | none => none
    | some bc2 => applyBatches fuel bc2 rest

/-! Concrete states used to evaluate the code on specific inputs.  The
transaction strings were chosen so that the proof-of-work search succeeds at
nonce 0, keeping kernel evaluation small. -/

def c1BC : Blockchain :=
  { Blocks := [], NumTransactionsPerBlock := 1, BlockHashMin := "", BlockHashMax := "" }

def c3Init : Blockchain :=
  { Blocks := [], NumTransactionsPerBlock := 1, BlockHashMin := "", BlockHashMax := "" }

def c3Out : Blockchain := (applyBatches 1 c3Init [["v111368"]]).getD c3Init

def c4BC : Blockchain :=
  { Blocks := [], NumTransactionsPerBlock := 1, BlockHashMin := "", BlockHashMax := "" }

def c4Out : Blockchain := (c4BC.NewBlock 1 ["u121167"]).getD c4BC

def c5Blk0 : Block :=
  { Transaction := ["x40645"], Nonce := 0, PreviousHash := "", CurrentHash := "", MerkleRoot := "" }

def c5Blk1 : Block :=
  { Transaction := ["z"], Nonce := 0,
    PreviousHash := "ccba2468b187b720c98ec1db4c57f6a7f691b31d33ab6274b43d386b97201aae",
    CurrentHash := "", MerkleRoot := "" }

def c5BC : Blockchain :=
  { Blocks := [c5Blk0, c5Blk1], NumTransactionsPerBlock := 1,
    BlockHashMin := "", BlockHashMax := "" }

def c5Out : Bool × Blockchain := (c5BC.ChangeBlock 1 0 "y").getD (false, c5BC)

def c5wBlk1 : Block :=
  { Transaction := ["z"], Nonce := 0, PreviousHash := "stale",
    CurrentHash := "", MerkleRoot := "" }

def c5wBC : Blockchain :=
  { Blocks := [c5Blk0, c5wBlk1], NumTransactionsPerBlock := 1,
    BlockHashMin := "", BlockHashMax := "" }

def c5wOut : Blockchain := ((c5wBC.ChangeBlock 1 0 "y").getD (false, c5wBC)).2

def c6Blk : Block :=
  { Transaction := ["p14234"], Nonce := 0, PreviousHash := "", CurrentHash := "", MerkleRoot := "" }

def c6BC : Blockchain :=
  { Blocks := [c6Blk], NumTransactionsPerBlock := 1, BlockHashMin := "", BlockHashMax := "" }

def c6Out : Bool × Blockchain := (c6BC.ChangeBlock 1 0 "q").getD (false, c6BC)

def c1Out : Blockchain := (c1BC.NewBlock 1 ["tx36922"]).getD c1BC

def c7BC : Blockchain :=
  { Blocks := [], NumTransactionsPerBlock := 5, BlockHashMin := "", BlockHashMax := "" }

def c8BC : Blockchain :=
  { Blocks := [], NumTransactionsPerBlock := 3, BlockHashMin := "a", BlockHashMax := "b" }

/-! Sanity anchors: the embedded SHA-256 agrees with the standard test
vectors. -/

theorem sha256Hex_empty_vector :
    sha256Hex "" = "e3b0c44298fc1c149afbf4c8996fb92427ae41e4649b934ca495991b7852b855" := by rfl

theorem sha256Hex_abc_vector :
    sha256Hex "abc" = "ba7816bf8f01cfea414140de5dae2223b00361a396177a9cb410ff61f20015ad" := by rfl

/-! Faithfulness of the fuel-based `CreateMerkleRoot`: the source's recursion
equations hold, because the pairing pass strictly shrinks the list. -/

theorem pairStep_length : ∀ l : List String, (pairStep l).length = (l.length + 1) / 2
  | [] => by simp [pairStep]
  | [a] => by simp [pairStep]
  | a :: b :: rest => by
    simp [pairStep, pairStep_length rest]
    omega

theorem merkleGo_fuel : ∀ (k1 : Nat) (k2 : Nat) (l : List String),
    l.length ≤ k1 → l.length ≤ k2 → merkleGo k1 l = merkleGo k2 l := by
  intro k1
  induction k1 with
  | zero =>
    intro k2 l h1 _
    have hl : l = [] := List.eq_nil_of_length_eq_zero (Nat.le_zero.mp h1)
    subst hl
    cases k2 <;> rfl
  | succ k ih =>
    intro k2 l h1 h2
    match l with
    | [] => cases k2 <;> rfl
    | [t] => cases k2 <;> rfl
    | a :: b :: rest =>
      cases k2 with
      | zero => simp at h2
      | succ m =>
        show merkleGo k (pairStep (a :: b :: rest)) = merkleGo m (pairStep (a :: b :: rest))
        have hp := pairStep_length (a :: b :: rest)
        simp at h1 h2 hp
        apply ih
        · omega
        · omega

theorem CreateMerkleRoot_nil : CreateMerkleRoot [] = "" := rfl

theorem CreateMerkleRoot_single (t : String) : CreateMerkleRoot [t] = t := rfl

theorem CreateMerkleRoot_step (a b : String) (rest : List String) :
    CreateMerkleRoot (a :: b :: rest) = CreateMerkleRoot (pairStep (a :: b :: rest)) := by
  show merkleGo (rest.length + 2) (a :: b :: rest) = _
  show merkleGo (rest.length + 1) (pairStep (a :: b :: rest)) =
    merkleGo (pairStep (a :: b :: rest)).length (pairStep (a :: b :: rest))
  have hp := pairStep_length (a :: b :: rest)
  apply merkleGo_fuel
  · simp at hp ⊢
    omega
  · exact Nat.le_refl _

theorem str_append_nil (s : String) : s ++ "" = s := by
  cases s with
  | mk data =>
    show String.mk (data ++ []) = String.mk data
    rw [List.append_nil]

set_option maxRecDepth 100000 in
/-- C2 counterexample: on the concrete input `["a", "b", "c"]` the program's
Merkle root differs from the claimed value `hash(hash(a+b) + c)`, because the
odd tail is hashed (paired with the empty string) before the second level. -/
theorem C2_counterexample :
    ¬ (CreateMerkleRoot ["a", "b", "c"] = sha256Hex (sha256Hex ("a" ++ "b") ++ "c")) := by
  decide

/-- C2 (amended): for all strings `a b c`, `CreateMerkleRoot [a, b]` is
`hash(a+b)`, and `CreateMerkleRoot [a, b, c]` is `hash(hash(a+b) + hash(c))`
(the odd tail is paired with the empty string and hashed), where hash is the
hex-encoded SHA-256 digest and `+` is concatenation with no delimiter. -/
theorem C2_merkle_two_and_three (a b c : String) :
    CreateMerkleRoot [a, b] = sha256Hex (a ++ b) ∧
    CreateMerkleRoot [a, b, c] = sha256Hex (sha256Hex (a ++ b) ++ sha256Hex c) := by
  constructor
  · rw [CreateMerkleRoot_step a b []]
    exact CreateMerkleRoot_single _
  · rw [CreateMerkleRoot_step a b [c]]
    show CreateMerkleRoot [sha256Hex (a ++ b), sha256Hex (c ++ "")] = _
    rw [CreateMerkleRoot_step (sha256Hex (a ++ b)) (sha256Hex (c ++ "")) []]
    show CreateMerkleRoot [sha256Hex (sha256Hex (a ++ b) ++ sha256Hex (c ++ ""))] = _
    rw [CreateMerkleRoot_single, str_append_nil c]

/-- C9: `CreateMerkleRoot` returns the empty string on the empty list and
returns the single element itself, unhashed, on any one-element list. -/
theorem C9_merkle_base_cases :
    CreateMerkleRoot [] = "" ∧ ∀ x : String, CreateMerkleRoot [x] = x :=
  ⟨rfl, fun _ => rfl⟩

/-- C10: on any list of length at least 2, the pairing pass feeding the
recursive call of `CreateMerkleRoot` yields a list of length `ceil(n/2) =
(n+1)/2`, strictly smaller than `n`, and the root of the original list equals
the root of the paired list, so the recursion is well-founded on length. -/
theorem C10_merkle_recursion_shrinks (l : List String) (h : 2 ≤ l.length) :
    (pairStep l).length = (l.length + 1) / 2 ∧ (pairStep l).length < l.length ∧
    CreateMerkleRoot l = CreateMerkleRoot (pairStep l) := by
  match l, h with
  | a :: b :: rest, _ =>
    refine ⟨pairStep_length _, ?_, CreateMerkleRoot_step a b rest⟩
    rw [pairStep_length]
    simp
    omega

/-- C10 witness at the concrete list `["a", "b", "c"]`. -/
theorem C10_witness :
    2 ≤ (["a", "b", "c"] : List String).length ∧
    ((pairStep ["a", "b", "c"]).length = ((["a", "b", "c"] : List String).length + 1) / 2 ∧
     (pairStep ["a", "b", "c"]).length < (["a", "b", "c"] : List String).length ∧
     CreateMerkleRoot ["a", "b", "c"] = CreateMerkleRoot (pairStep ["a", "b", "c"])) :=
  ⟨by decide, C10_merkle_recursion_shrinks ["a", "b", "c"] (by decide)⟩

/-! Lemmas about chain linkage. -/

theorem chainOk_cons_cons (a b : Block) (rest : List Block) :
    chainOk (a :: b :: rest) = ((b.PreviousHash == a.CurrentHash) && chainOk (b :: rest)) := rfl

theorem chainOk_all_links : ∀ l : List Block, chainOk l = true →
    ∀ i, i + 1 < l.length →
      (l.getD (i + 1) zeroBlock).PreviousHash = (l.getD i zeroBlock).CurrentHash
  | [], _, i, h => by simp at h
  | [_], _, i, h => by simp at h
  | a :: b :: rest, hok, i, h => by
    rw [chainOk_cons_cons, Bool.and_eq_true] at hok
    cases i with
    | zero =>
      simp only [List.getD_cons_succ, List.getD_cons_zero]
      exact eq_of_beq hok.1
    | succ j =>
      have hlt : j + 1 < (b :: rest).length := by
        simp at h ⊢
        omega
      have := chainOk_all_links (b :: rest) hok.2 j hlt
      simpa only [List.getD_cons_succ] using this

theorem chainOk_snoc : ∀ (l : List Block) (b : Block), chainOk l = true →
    (l ≠ [] → b.PreviousHash = (l.getD (l.length - 1) zeroBlock).CurrentHash) →
    chainOk (l ++ [b]) = true
  | [], _, _, _ => rfl
  | [a], b, _, hb => by
    have h := hb (by simp)
    simp only [List.length_cons, List.length_nil, Nat.add_sub_cancel, List.getD_cons_zero] at h
    show ((b.PreviousHash == a.CurrentHash) && true) = true
    simp [h]
  | a :: c :: rest, b, hok, hb => by
    rw [chainOk_cons_cons, Bool.and_eq_true] at hok
    have hb2 : (c :: rest) ≠ [] →
        b.PreviousHash = ((c :: rest).getD ((c :: rest).length - 1) zeroBlock).CurrentHash := by
      intro _
      have h := hb (by simp)
      simp only [List.length_cons, Nat.add_sub_cancel, List.getD_cons_succ] at h ⊢
      exact h
    have ih := chainOk_snoc (c :: rest) b hok.2 hb2
    show ((c.PreviousHash == a.CurrentHash) && chainOk (c :: (rest ++ [b]))) = true
    rw [Bool.and_eq_true]
    exact ⟨hok.1, ih⟩

theorem getD_append_last (l : List Block) (b : Block) :
    (l ++ [b]).getD l.length zeroBlock = b := by
  induction l with
  | nil => rfl
  | cons a t ih => simpa only [List.cons_append, List.getD_cons_succ, List.length_cons] using ih

theorem getD_set_ne : ∀ (l : List Block) (i j : Nat) (b : Block), j ≠ i →
    (l.set i b).getD j zeroBlock = l.getD j zeroBlock
  | [], _, _, _, _ => by simp
  | a :: rest, 0, j, b, hj => by
    cases j with
    | zero => exact absurd rfl hj
    | succ m => simp
  | a :: rest, i + 1, j, b, hj => by
    cases j with
    | zero => simp
    | succ m =>
      simp only [List.set_cons_succ, List.getD_cons_succ]
      exact getD_set_ne rest i m b (by omega)

/-! Characterization of the two ledger mutators: either the guard rejects and
the state is returned unchanged, or the proof-of-work search returned a nonce
and the state is updated exactly as the source writes it. -/

theorem NewBlock_cases (fuel : Nat) (bc : Blockchain) (ts : List String) (bc2 : Blockchain)
    (h : bc.NewBlock fuel ts = some bc2) :
    bc2 = bc ∨
    (ts.length ≠ 0 ∧ (ts.length : Int) ≥ bc.NumTransactionsPerBlock ∧
      ∃ nonce : Nat,
        FindValidNonce fuel (CreateMerkleRoot ts) bc.GetRecentBlock.CurrentHash = some nonce ∧
        bc2 = { bc with Blocks := bc.Blocks ++
          [{ Transaction := ts, Nonce := Int.ofNat nonce,
             PreviousHash := bc.GetRecentBlock.CurrentHash,
             CurrentHash := CreateHash ts (Int.ofNat nonce) bc.GetRecentBlock.CurrentHash
               (CreateMerkleRoot ts),
             MerkleRoot := CreateMerkleRoot ts }] }) := by
  simp only [Blockchain.NewBlock] at h
  split at h
  · exact Or.inl (Option.some.inj h).symm
  next hzero =>
    split at h
    next hge =>
      split at h
      next => exact Option.noConfusion h
      next nonce hfv =>
        exact Or.inr ⟨hzero, hge, nonce, hfv, (Option.some.inj h).symm⟩
    next => exact Or.inl (Option.some.inj h).symm

theorem NewBlock_chain_preserved (fuel : Nat) (bc : Blockchain) (ts : List String)
    (bc2 : Blockchain) (h : bc.NewBlock fuel ts = some bc2) (hok : bc.VerifyChain = true) :
    bc2.VerifyChain = true := by
  rcases NewBlock_cases fuel bc ts bc2 h with rfl | ⟨-, -, nonce, -, rfl⟩
  · exact hok
  · show chainOk (bc.Blocks ++ [_]) = true
    apply chainOk_snoc bc.Blocks _ hok
    intro hne
    show (Blockchain.GetRecentBlock bc).CurrentHash = _
    unfold Blockchain.GetRecentBlock
    rw [if_neg (by simpa using hne)]

theorem applyBatches_chain (fuel : Nat) : ∀ (batches : List (List String)) (bc bc2 : Blockchain),
    applyBatches fuel bc batches = some bc2 → bc.VerifyChain = true → bc2.VerifyChain = true
  | [], bc, bc2, h, hok => (Option.some.inj h) ▸ hok
  | ts :: rest, bc, bc2, h, hok => by
    simp only [applyBatches] at h
    split at h
    · exact absurd h (by simp)
    · next bcm hnb =>
      exact applyBatches_chain fuel rest bcm bc2 h
        (NewBlock_chain_preserved fuel bc ts bcm hnb hok)

/-- C3: starting from an empty ledger, after any finite sequence of `NewBlock`
calls that all return (and no `ChangeBlock`), `VerifyChain` is true, and for
every index with a predecessor the stored `PreviousHash` equals the
predecessor's `CurrentHash`. -/
theorem C3_fresh_chain_verifies (fuel : Nat) (batches : List (List String)) (n : Int)
    (mn mx : String) (bc2 : Blockchain)
    (h : applyBatches fuel
      { Blocks := [], NumTransactionsPerBlock := n, BlockHashMin := mn, BlockHashMax := mx }
      batches = some bc2) :
    bc2.VerifyChain = true ∧
    ∀ i, i + 1 < bc2.Blocks.length →
      (bc2.Blocks.getD (i + 1) zeroBlock).PreviousHash =
        (bc2.Blocks.getD i zeroBlock).CurrentHash := by
  have hok := applyBatches_chain fuel batches _ bc2 h rfl
  exact ⟨hok, chainOk_all_links bc2.Blocks hok⟩

set_option maxRecDepth 100000 in
/-- C3 witness: one accepted batch appended to the empty ledger. -/
theorem C3_witness :
    applyBatches 1 c3Init [["v111368"]] = some c3Out ∧
    (c3Out.VerifyChain = true ∧
     ∀ i, i + 1 < c3Out.Blocks.length →
       (c3Out.Blocks.getD (i + 1) zeroBlock).PreviousHash =
         (c3Out.Blocks.getD i zeroBlock).CurrentHash) :=
  ⟨rfl, C3_fresh_chain_verifies 1 [["v111368"]] 1 "" "" c3Out rfl⟩

theorem GetRecentBlock_append (bc : Blockchain) (blk : Block) (l : List Block) :
    Blockchain.GetRecentBlock { bc with Blocks := l ++ [blk] } = blk := by
  unfold Blockchain.GetRecentBlock
  rw [if_neg (by simp)]
  show (l ++ [blk]).getD ((l ++ [blk]).length - 1) zeroBlock = blk
  simp only [List.length_append, List.length_cons, List.length_nil, Nat.add_sub_cancel]
  exact getD_append_last l blk

theorem GetRecentBlock_empty_hash (bc : Blockchain) (h0 : bc.Blocks.length = 0) :
    bc.GetRecentBlock.CurrentHash = "" := by
  unfold Blockchain.GetRecentBlock
  rw [if_pos h0]
  rfl

/-- C4: whenever `NewBlock` returns and has appended a block, the new last
block's `PreviousHash` equals the `CurrentHash` of the block that was last
before the call, or the empty-string sentinel if the ledger was empty. -/
theorem C4_appended_links_to_last (fuel : Nat) (bc : Blockchain) (ts : List String)
    (bc2 : Blockchain) (h : bc.NewBlock fuel ts = some bc2)
    (hgrow : bc.Blocks.length < bc2.Blocks.length) :
    bc2.GetRecentBlock.PreviousHash =
      if bc.Blocks.length = 0 then "" else bc.GetRecentBlock.CurrentHash := by
  rcases NewBlock_cases fuel bc ts bc2 h with rfl | ⟨-, -, nonce, -, rfl⟩
  · exact absurd hgrow (Nat.lt_irrefl _)
  · rw [GetRecentBlock_append]
    show bc.GetRecentBlock.CurrentHash = _
    by_cases h0 : bc.Blocks.length = 0
    · rw [if_pos h0, GetRecentBlock_empty_hash bc h0]
    · rw [if_neg h0]

set_option maxRecDepth 100000 in
/-- C4 witness: an accepted batch appended to the empty ledger. -/
theorem C4_witness :
    c4BC.NewBlock 1 ["u121167"] = some c4Out ∧
    c4BC.Blocks.length < c4Out.Blocks.length ∧
    c4Out.GetRecentBlock.PreviousHash =
      (if c4BC.Blocks.length = 0 then "" else c4BC.GetRecentBlock.CurrentHash) :=
  ⟨rfl, by decide, C4_appended_links_to_last 1 c4BC ["u121167"] c4Out rfl (by decide)⟩

theorem ChangeBlock_cases (fuel : Nat) (bc : Blockchain) (index : Int) (t : String)
    (res : Bool × Blockchain) (h : bc.ChangeBlock fuel index t = some res) :
    (¬ (0 ≤ index ∧ index < (bc.Blocks.length : Int)) ∧ res = (false, bc)) ∨
    ((0 ≤ index ∧ index < (bc.Blocks.length : Int)) ∧
      ∃ nonce : Nat,
        FindValidNonce fuel (CreateMerkleRoot (rewriteTxs bc index t)) (rewritePrev bc index) =
          some nonce ∧
        res = (true,
          { bc with Blocks := bc.Blocks.set index.toNat (rewrittenBlock bc index t nonce) })) := by
  simp only [Blockchain.ChangeBlock] at h
  split at h
  next hin =>
    split at h
    next => exact Option.noConfusion h
    next nonce hfv =>
      exact Or.inr ⟨hin, nonce, hfv, (Option.some.inj h).symm⟩
  next hout => exact Or.inl ⟨hout, (Option.some.inj h).symm⟩

set_option maxRecDepth 400000 in
/-- C5 counterexample: a concrete two-block ledger in which the successor's
stored `PreviousHash` was crafted to equal the hash that the rewrite of block
0 recomputes; `ChangeBlock 0` succeeds on an index with a successor, yet
`VerifyChain` still returns true afterwards, so the claim's universal
quantification over every ledger state fails. -/
theorem C5_counterexample :
    c5BC.ChangeBlock 1 0 "y" = some c5Out ∧ c5Out.1 = true ∧
    1 < c5BC.Blocks.length ∧ c5Out.2.VerifyChain = true :=
  ⟨rfl, rfl, by decide, rfl⟩

/-- C5 (amended): after a `ChangeBlock` call that returns true on an index
with a successor block, if the successor's stored `PreviousHash` differs from
the rewritten block's new `CurrentHash` (as is the case whenever the rewrite
actually changes the hash the successor pointed to), then `VerifyChain`
returns false. -/
theorem C5_rewrite_breaks_chain (fuel : Nat) (bc : Blockchain) (index : Int) (t : String)
    (bc2 : Blockchain) (hc : bc.ChangeBlock fuel index t = some (true, bc2))
    (hsucc : index.toNat + 1 < bc.Blocks.length)
    (hne : (bc2.Blocks.getD (index.toNat + 1) zeroBlock).PreviousHash ≠
           (bc2.Blocks.getD index.toNat zeroBlock).CurrentHash) :
    bc2.VerifyChain = false := by
  have hlen : bc2.Blocks.length = bc.Blocks.length := by
    rcases ChangeBlock_cases fuel bc index t (true, bc2) hc with ⟨-, heq⟩ | ⟨-, nonce, -, heq⟩
    · injection heq with h1 _
      exact Bool.noConfusion h1
    · injection heq with _ h2
      rw [h2]
      simp [List.length_set]
  cases hv : bc2.VerifyChain with
  | false => rfl
  | true =>
    exact absurd (chainOk_all_links bc2.Blocks hv index.toNat (by omega)) hne

set_option maxRecDepth 400000 in
/-- C5 witness: an honest two-block ledger whose successor points at a stale
hash after the rewrite of block 0, so `VerifyChain` reports false. -/
theorem C5_witness :
    c5wBC.ChangeBlock 1 0 "y" = some (true, c5wOut) ∧
    (0 : Int).toNat + 1 < c5wBC.Blocks.length ∧
    ((c5wOut.Blocks.getD ((0 : Int).toNat + 1) zeroBlock).PreviousHash ≠
      (c5wOut.Blocks.getD (0 : Int).toNat zeroBlock).CurrentHash) ∧
    c5wOut.VerifyChain = false :=
  ⟨rfl, by decide, by decide,
    C5_rewrite_breaks_chain 1 c5wBC 0 "y" c5wOut rfl (by decide) (by decide)⟩

/-- C6: on any in-range index, a `ChangeBlock` call that returns reports
true and replaces exactly the block at that index with the rebuilt block
(old transactions plus the new one, recomputed Merkle root, previous hash
from the predecessor or the empty string at index 0, re-mined nonce and
recomputed current hash); every other block and all configuration fields are
unchanged. -/
theorem C6_rewrite_replaces_only_index (fuel : Nat) (bc : Blockchain) (index : Int)
    (t : String) (res : Bool × Blockchain) (h0 : 0 ≤ index)
    (h1 : index < (bc.Blocks.length : Int)) (hc : bc.ChangeBlock fuel index t = some res) :
    res.1 = true ∧
    ∃ nonce : Nat,
      FindValidNonce fuel (CreateMerkleRoot (rewriteTxs bc index t)) (rewritePrev bc index) =
        some nonce ∧
      res.2.Blocks = bc.Blocks.set index.toNat (rewrittenBlock bc index t nonce) ∧
      (rewrittenBlock bc index t nonce).Transaction =
        (bc.Blocks.getD index.toNat zeroBlock).Transaction ++ [t] ∧
      (rewrittenBlock bc index t nonce).MerkleRoot = CreateMerkleRoot (rewriteTxs bc index t) ∧
      (rewrittenBlock bc index t nonce).PreviousHash =
        (if 0 < index then (bc.Blocks.getD (index.toNat - 1) zeroBlock).CurrentHash else "") ∧
      (rewrittenBlock bc index t nonce).CurrentHash =
        CreateHash (rewriteTxs bc index t) (Int.ofNat nonce) (rewritePrev bc index)
          (CreateMerkleRoot (rewriteTxs bc index t)) ∧
      res.2.NumTransactionsPerBlock = bc.NumTransactionsPerBlock ∧
      res.2.BlockHashMin = bc.BlockHashMin ∧
      res.2.BlockHashMax = bc.BlockHashMax ∧
      res.2.Blocks.length = bc.Blocks.length ∧
      ∀ j, j ≠ index.toNat → res.2.Blocks.getD j zeroBlock = bc.Blocks.getD j zeroBlock := by
  rcases ChangeBlock_cases fuel bc index t res hc with ⟨hcon, -⟩ | ⟨-, nonce, hfv, heq⟩
  · exact absurd ⟨h0, h1⟩ hcon
  · subst heq
    refine ⟨rfl, nonce, hfv, rfl, rfl, rfl, rfl, rfl, rfl, rfl, rfl,
      by simp [List.length_set], ?_⟩
    intro j hj
    exact getD_set_ne bc.Blocks index.toNat j (rewrittenBlock bc index t nonce) hj

set_option maxRecDepth 400000 in
/-- C6 witness: rewriting index 0 of a one-block ledger. -/
theorem C6_witness :
    (0 : Int) ≤ 0 ∧ (0 : Int) < (c6BC.Blocks.length : Int) ∧
    c6BC.ChangeBlock 1 0 "q" = some c6Out ∧
    (c6Out.1 = true ∧
     ∃ nonce : Nat,
       FindValidNonce 1 (CreateMerkleRoot (rewriteTxs c6BC 0 "q")) (rewritePrev c6BC 0) =
         some nonce ∧
       c6Out.2.Blocks = c6BC.Blocks.set (0 : Int).toNat (rewrittenBlock c6BC 0 "q" nonce) ∧
       (rewrittenBlock c6BC 0 "q" nonce).Transaction =
         (c6BC.Blocks.getD (0 : Int).toNat zeroBlock).Transaction ++ ["q"] ∧
       (rewrittenBlock c6BC 0 "q" nonce).MerkleRoot = CreateMerkleRoot (rewriteTxs c6BC 0 "q") ∧
       (rewrittenBlock c6BC 0 "q" nonce).PreviousHash =
         (if (0 : Int) < 0 then (c6BC.Blocks.getD ((0 : Int).toNat - 1) zeroBlock).CurrentHash
          else "") ∧
       (rewrittenBlock c6BC 0 "q" nonce).CurrentHash =
         CreateHash (rewriteTxs c6BC 0 "q") (Int.ofNat nonce) (rewritePrev c6BC 0)
           (CreateMerkleRoot (rewriteTxs c6BC 0 "q")) ∧
       c6Out.2.NumTransactionsPerBlock = c6BC.NumTransactionsPerBlock ∧
       c6Out.2.BlockHashMin = c6BC.BlockHashMin ∧
       c6Out.2.BlockHashMax = c6BC.BlockHashMax ∧
       c6Out.2.Blocks.length = c6BC.Blocks.length ∧
       ∀ j, j ≠ (0 : Int).toNat →
         c6Out.2.Blocks.getD j zeroBlock = c6BC.Blocks.getD j zeroBlock) :=
  ⟨le_refl 0, by decide, rfl,
    C6_rewrite_replaces_only_index 1 c6BC 0 "q" c6Out (le_refl 0) (by decide) rfl⟩

/-- C7: a batch that is empty or strictly below `NumTransactionsPerBlock` is
rejected by `NewBlock`: the call returns with the ledger (blocks and all
configuration) exactly as it was. -/
theorem C7_small_batch_rejected (fuel : Nat) (bc : Blockchain) (ts : List String)
    (h : ts = [] ∨ (ts.length : Int) < bc.NumTransactionsPerBlock) :
    bc.NewBlock fuel ts = some bc := by
  unfold Blockchain.NewBlock
  rcases h with rfl | hlt
  · rfl
  · by_cases h0 : ts.length = 0
    · rw [if_pos h0]
    · rw [if_neg h0, if_neg (by omega : ¬ ((ts.length : Int) ≥ bc.NumTransactionsPerBlock))]

/-- C7 witness: a one-transaction batch against threshold 5. -/
theorem C7_witness :
    ((["a"] : List String) = [] ∨
      (((["a"] : List String).length : Int) < c7BC.NumTransactionsPerBlock)) ∧
    c7BC.NewBlock 1 ["a"] = some c7BC :=
  ⟨Or.inr (by decide), C7_small_batch_rejected 1 c7BC ["a"] (Or.inr (by decide))⟩

/-- C8: `ChangeBlock` on a negative or too-large index returns false and the
entire `Blockchain` value (block list and configuration) is unchanged. -/
theorem C8_out_of_range_rejected (fuel : Nat) (bc : Blockchain) (index : Int) (t : String)
    (h : index < 0 ∨ (bc.Blocks.length : Int) ≤ index) :
    bc.ChangeBlock fuel index t = some (false, bc) := by
  unfold Blockchain.ChangeBlock
  rw [if_neg (by omega : ¬ (0 ≤ index ∧ index < (bc.Blocks.length : Int)))]

/-- C8 witness: index -1 on an empty ledger. -/
theorem C8_witness :
    (((-1 : Int) < 0) ∨ ((c8BC.Blocks.length : Int) ≤ (-1 : Int))) ∧
    c8BC.ChangeBlock 1 (-1) "t" = some (false, c8BC) :=
  ⟨Or.inl (by decide), C8_out_of_range_rejected 1 c8BC (-1) "t" (Or.inl (by decide))⟩

set_option maxRecDepth 400000 in
/-- C1: evaluation of the code at a failing input.  The batch `["tx36922"]`
is accepted (threshold 1) and a block is appended; the proof-of-work search
returns nonce 0 because the hash over the EMPTY transaction list meets the
4-leading-zero target, yet the stored `CurrentHash` — computed over the real
transaction list, a different serialization — does not meet the target, so
the claimed difficulty property of the stored hash fails. -/
theorem C1_stored_hash_fails_difficulty :
    c1BC.NewBlock 1 ["tx36922"] = some c1Out ∧
    c1Out.Blocks.length = 1 ∧
    FindValidNonce 1 (CreateMerkleRoot ["tx36922"]) c1BC.GetRecentBlock.CurrentHash = some 0 ∧
    strHasAsStart (CreateHash [] 0 "" "tx36922") difficultyTarget = true ∧
    strHasAsStart c1Out.GetRecentBlock.CurrentHash difficultyTarget = false :=
  ⟨rfl, rfl, rfl, rfl, rfl⟩
